import Mathlib

/-!
Verification development for the coalition-formation simulator of
dcsxx-cloud-gt (src/sim.cpp).  The C++ core is shallowly embedded here:

* real numbers are modelled by `ℚ`;
* the MILP back-end (CPLEX/Gurobi) is an external collaborator, so the
  model built by `find_optimal_allocation` (objective, constraints) is
  embedded as explicit functions of the decision variables, and the
  solver's answer is an oracle parameter;
* the combinatorial enumerators (`dcs::algorithm::lexicographic_subset`,
  `lexicographic_partition`) and the floating-point comparison helpers
  (`dcs::math::float_traits`) live in external libraries and are modelled
  from the specification, as documented on each definition;
* IEEE NaN values (used for absent payoffs) are modelled by `Option ℚ`
  with `none` playing the role of NaN: every comparison against `none`
  is false, as every IEEE comparison against NaN is.
-/

namespace CloudGT

/-- Arithmetic coercion of a C++ `bool` (the source uses power states as
0/1 factors inside the objective). -/
def boolToRat (b : Bool) : ℚ := if b then 1 else 0

/-- Modelled from the spec: `dcs::math::float_traits<RealT>::definitely_less`
(dcsxx-commons, not under src/) is a Knuth-style relative epsilon
comparison; per spec section 9 the comparisons are of the
`definitely_less` / `essentially_equal` style.  `x` is definitely less
than `y` when the gap exceeds `eps` times the larger magnitude. -/
def definitelyLess (eps x y : ℚ) : Bool := decide (y - x > eps * max |x| |y|)

/-- Modelled from the spec: `definitely_greater(x, y)` is
`definitely_less(y, x)`. -/
def definitelyGreater (eps x y : ℚ) : Bool := definitelyLess eps y x

/-- Comparison `definitely_greater` lifted to NaN-aware values
(`none` = NaN): any comparison involving NaN is false. -/
def dgtO (eps : ℚ) : Option ℚ → Option ℚ → Bool
  | some x, some y => definitelyGreater eps x y
  | _, _ => false

/-- Plain `>` on doubles lifted to NaN-aware values (`none` = NaN):
false whenever either side is NaN.  Used by the Pareto selector, which
compares payoffs with the raw `>` operator. -/
def ogt : Option ℚ → Option ℚ → Bool
  | some x, some y => decide (x > y)
  | _, _ => false

/-- Coalition id of a set of players given as a duplicate-free list:
`gtpack::players_coalition::make_id` returns the bitmask `Σ_{p∈S} 2^p`. -/
def cidOf (l : List ℕ) : ℕ := (l.map (fun p => 2 ^ p)).sum

/-! ### The placement solver's MILP model (`find_optimal_allocation`)

The input record carries exactly the arrays the C++ function receives;
indexing is by plain naturals (the C++ code indexes `std::vector`s that
are always large enough along the used ranges). -/

/-- Input of `find_optimal_allocation` (src/sim.cpp lines 1108-1126). -/
structure AllocInput where
  npms : ℕ
  nvms : ℕ
  pms_cip : ℕ → ℕ
  pms_category : ℕ → ℕ
  vms_cip : ℕ → ℕ
  vms_category : ℕ → ℕ
  pm_specs_min_power : ℕ → ℚ
  pm_specs_max_power : ℕ → ℚ
  vm_specs_cpu : ℕ → ℕ → ℚ
  vm_specs_ram : ℕ → ℕ → ℚ
  pm_power_states : ℕ → Bool
  cips_electricity_cost : ℕ → ℚ
  cip_pm_asleep_costs : ℕ → ℕ → ℚ
  cip_pm_awake_costs : ℕ → ℕ → ℚ
  cip_to_cip_vm_migration_costs : ℕ → ℕ → ℕ → ℚ

/-- Min-cost objective exactly as the source builds it, term by term, in
the loop over PMs (src/sim.cpp lines 1311-1330, and identically lines
1634-1652): per PM the electricity term `(x_h·Pmin + dC·s_h)·wcost` with
`dC = Pmax − Pmin` and `wcost = E(owner)·1e-3`, plus the switch-on term,
plus the switch-off term, plus the migration terms of all VMs. -/
def minCostObjective (inp : AllocInput) (x s : ℕ → ℚ) (y : ℕ → ℕ → ℚ) : ℚ :=
  ∑ h ∈ Finset.range inp.npms,
    ((x h * inp.pm_specs_min_power (inp.pms_category h) +
        (inp.pm_specs_max_power (inp.pms_category h) -
          inp.pm_specs_min_power (inp.pms_category h)) * s h) *
      (inp.cips_electricity_cost (inp.pms_cip h) * (1 / 1000)) +
     (x h * (1 - boolToRat (inp.pm_power_states h)) *
        inp.cip_pm_awake_costs (inp.pms_cip h) (inp.pms_category h) +
      (1 - x h) * boolToRat (inp.pm_power_states h) *
        inp.cip_pm_asleep_costs (inp.pms_cip h) (inp.pms_category h)) +
     ∑ v ∈ Finset.range inp.nvms,
       y v h *
         inp.cip_to_cip_vm_migration_costs (inp.vms_cip v) (inp.pms_cip h)
           (inp.vms_category v))

/-- Min-cost objective exactly as claim C2 states it: the sum over PMs of
the electricity term `(x_h·P_min(t(h)) + (P_max(t(h)) − P_min(t(h)))·s_h)
· E(owner(h)) · 1e-3`, plus `x_h·(1−o(h))·L(owner(h),t(h))`, plus
`(1−x_h)·o(h)·S(owner(h),t(h))`, plus the sum over VMs of
`y_{vh}·G(owner(v), owner(h), type(v))`. -/
def minCostObjectiveSpec (inp : AllocInput) (x s : ℕ → ℚ) (y : ℕ → ℕ → ℚ) : ℚ :=
  (∑ h ∈ Finset.range inp.npms,
    (x h * inp.pm_specs_min_power (inp.pms_category h) +
      (inp.pm_specs_max_power (inp.pms_category h) -
        inp.pm_specs_min_power (inp.pms_category h)) * s h) *
      inp.cips_electricity_cost (inp.pms_cip h) * (1 / 1000)) +
  (∑ h ∈ Finset.range inp.npms,
    x h * (1 - boolToRat (inp.pm_power_states h)) *
      inp.cip_pm_awake_costs (inp.pms_cip h) (inp.pms_category h)) +
  (∑ h ∈ Finset.range inp.npms,
    (1 - x h) * boolToRat (inp.pm_power_states h) *
      inp.cip_pm_asleep_costs (inp.pms_cip h) (inp.pms_category h)) +
  ∑ h ∈ Finset.range inp.npms, ∑ v ∈ Finset.range inp.nvms,
    y v h *
      inp.cip_to_cip_vm_migration_costs (inp.vms_cip v) (inp.pms_cip h)
        (inp.vms_category v)

/-- Post-solve cost assignment (src/sim.cpp lines 1417-1425 and
1720-1728): in min-power mode the cost is recomputed from consumed
power, in min-cost mode it is the objective value itself. -/
def solutionCost (min_power : Bool) (objective_value power_cost : ℚ) : ℚ :=
  if min_power then power_cost else objective_value

theorem minCost_objective_spec_eq (inp : AllocInput) (x s : ℕ → ℚ)
    (y : ℕ → ℕ → ℚ) :
    minCostObjective inp x s y = minCostObjectiveSpec inp x s y := by
  unfold minCostObjective minCostObjectiveSpec
  rw [← Finset.sum_add_distrib, ← Finset.sum_add_distrib, ← Finset.sum_add_distrib]
  refine Finset.sum_congr rfl (fun h _ => ?_)
  ring

/-- Claim C2: in min-cost mode the objective the solver is asked to
minimize is, term for term, the formula of the claim (electricity at
`E·1e-3` per watt, switch-on cost for PMs turned on that were off,
switch-off cost for PMs turned off that were on, and per-VM migration
costs), and the reported cost of a min-cost solution equals the
objective value.  Minimization itself is performed by the external MILP
back-end. -/
theorem claim_C2_minCost_objective (inp : AllocInput) (x s : ℕ → ℚ)
    (y : ℕ → ℕ → ℚ) (objective_value power_cost : ℚ) :
    minCostObjective inp x s y = minCostObjectiveSpec inp x s y ∧
    solutionCost false objective_value power_cost = objective_value :=
  ⟨minCost_objective_spec_eq inp x s y, rfl⟩

/-! ### The MILP constraints and the placement invariants (claim C3) -/

/-- Constraint C1 of the model (src/sim.cpp lines 1214-1224):
each VM is placed on exactly one PM, `∀v, Σ_h y_{vh} = 1`. -/
def consExactlyOne (inp : AllocInput) (y : ℕ → ℕ → ℚ) : Prop :=
  ∀ v < inp.nvms, ∑ h ∈ Finset.range inp.npms, y v h = 1

/-- Constraint C2 of the model (src/sim.cpp lines 1226-1242):
`∀h, Σ_v y_{vh} ≤ |V|·x_h`. -/
def consCountCap (inp : AllocInput) (x : ℕ → ℚ) (y : ℕ → ℕ → ℚ) : Prop :=
  ∀ h < inp.npms, ∑ v ∈ Finset.range inp.nvms, y v h ≤ x h * inp.nvms

/-- Constraint C3 of the model (src/sim.cpp lines 1244-1261):
`∀h, Σ_v y_{vh}·M(type(v),t(h)) ≤ x_h`. -/
def consRam (inp : AllocInput) (x : ℕ → ℚ) (y : ℕ → ℕ → ℚ) : Prop :=
  ∀ h < inp.npms,
    (∑ v ∈ Finset.range inp.nvms,
      y v h * inp.vm_specs_ram (inp.vms_category v) (inp.pms_category h)) ≤ x h

/-- Constraint C4 of the model (src/sim.cpp lines 1263-1280):
`∀h, Σ_v y_{vh}·A(type(v),t(h)) = s_h`. -/
def consCpu (inp : AllocInput) (s : ℕ → ℚ) (y : ℕ → ℕ → ℚ) : Prop :=
  ∀ h < inp.npms,
    (∑ v ∈ Finset.range inp.nvms,
      y v h * inp.vm_specs_cpu (inp.vms_category v) (inp.pms_category h)) = s h

/-- Constraint C5 of the model (src/sim.cpp lines 1282-1292):
`∀h, s_h ≤ x_h`. -/
def consUtil (inp : AllocInput) (x s : ℕ → ℚ) : Prop :=
  ∀ h < inp.npms, s h ≤ x h

/-- Binary decision variable (declared `IloBoolVar` / `GRB_BINARY`). -/
def binaryOn (f : ℕ → ℚ) (n : ℕ) : Prop :=
  ∀ i < n, f i = 0 ∨ f i = 1

/-- Binary matrix variable. -/
def binaryOn2 (y : ℕ → ℕ → ℚ) (m n : ℕ) : Prop :=
  ∀ v < m, ∀ h < n, y v h = 0 ∨ y v h = 1

lemma binary_nonneg {f : ℕ → ℚ} {n i : ℕ} (hb : binaryOn f n) (hi : i < n) :
    0 ≤ f i := by
  rcases hb i hi with h | h <;> simp [h]

lemma binary_le_one {f : ℕ → ℚ} {n i : ℕ} (hb : binaryOn f n) (hi : i < n) :
    f i ≤ 1 := by
  rcases hb i hi with h | h <;> simp [h]

lemma binary_sum_eq_card (n : ℕ) (f : ℕ → ℚ)
    (hb : ∀ i < n, f i = 0 ∨ f i = 1) :
    ∑ i ∈ Finset.range n, f i =
      ((Finset.range n).filter (fun i => f i = 1)).card := by
  classical
  rw [← Finset.sum_filter_add_sum_filter_not (Finset.range n) (fun i => f i = 1)]
  have h1 : ∑ i ∈ (Finset.range n).filter (fun i => f i = 1), f i =
      ((Finset.range n).filter (fun i => f i = 1)).card := by
    rw [Finset.sum_congr rfl (fun i hi => (Finset.mem_filter.mp hi).2)]
    simp
  have h2 : ∑ i ∈ (Finset.range n).filter (fun i => ¬ f i = 1), f i = 0 := by
    refine Finset.sum_eq_zero (fun i hi => ?_)
    rcases Finset.mem_filter.mp hi with ⟨hir, hne⟩
    rcases hb i (Finset.mem_range.mp hir) with h | h
    · exact h
    · exact absurd h hne
  rw [h1, h2, add_zero]

/-- Claim C3: for any feasible point of the MILP model built by
`find_optimal_allocation` (binary `x`, `y` and the constraints of the
source), the placement invariants hold — every VM is on exactly one PM,
every PM hosting a VM is powered on, the RAM share sum and the CPU share
sum of every PM are at most 1, the CPU sum equals the utilization
variable `s_h`, and `s_h ≤ x_h`.  A returned solution with
`solved = true` is such a feasible point by the MILP back-end's
contract. -/
theorem claim_C3_placement_invariants (inp : AllocInput) (x s : ℕ → ℚ)
    (y : ℕ → ℕ → ℚ)
    (hx : binaryOn x inp.npms) (hy : binaryOn2 y inp.nvms inp.npms)
    (h1 : consExactlyOne inp y) (h2 : consCountCap inp x y)
    (h3 : consRam inp x y) (h4 : consCpu inp s y) (h5 : consUtil inp x s) :
    (∀ v < inp.nvms, ∃! h, h < inp.npms ∧ y v h = 1) ∧
    (∀ h < inp.npms, (∃ v < inp.nvms, y v h = 1) → x h = 1) ∧
    (∀ h < inp.npms,
      (∑ v ∈ Finset.range inp.nvms,
        y v h * inp.vm_specs_ram (inp.vms_category v) (inp.pms_category h)) ≤ 1 ∧
      (∑ v ∈ Finset.range inp.nvms,
        y v h * inp.vm_specs_cpu (inp.vms_category v) (inp.pms_category h)) ≤ 1 ∧
      (∑ v ∈ Finset.range inp.nvms,
        y v h * inp.vm_specs_cpu (inp.vms_category v) (inp.pms_category h)) = s h ∧
      s h ≤ x h) := by
  classical
  refine ⟨?_, ?_, ?_⟩
  · -- exactly-one placement
    intro v hv
    have hcard : ∑ h ∈ Finset.range inp.npms, y v h =
        ((Finset.range inp.npms).filter (fun h => y v h = 1)).card :=
      binary_sum_eq_card inp.npms (fun h => y v h) (fun h hh => hy v hv h hh)
    have hone : (((Finset.range inp.npms).filter (fun h => y v h = 1)).card : ℚ) = 1 := by
      rw [← hcard]; exact h1 v hv
    have hcard1 : ((Finset.range inp.npms).filter (fun h => y v h = 1)).card = 1 := by
      exact_mod_cast hone
    rcases Finset.card_eq_one.mp hcard1 with ⟨a, ha⟩
    have hamem : a ∈ (Finset.range inp.npms).filter (fun h => y v h = 1) := by
      rw [ha]; exact Finset.mem_singleton_self a
    rcases Finset.mem_filter.mp hamem with ⟨har, hay⟩
    refine ⟨a, ⟨Finset.mem_range.mp har, hay⟩, ?_⟩
    intro b hb
    have hbmem : b ∈ (Finset.range inp.npms).filter (fun h => y v h = 1) :=
      Finset.mem_filter.mpr ⟨Finset.mem_range.mpr hb.1, hb.2⟩
    rw [ha] at hbmem
    exact Finset.mem_singleton.mp hbmem
  · -- used PM is powered on
    intro h hh ⟨v, hv, hyv⟩
    have hsum : (1 : ℚ) ≤ ∑ w ∈ Finset.range inp.nvms, y w h := by
      have hle := Finset.single_le_sum (f := fun w => y w h)
        (fun w hw => binary_nonneg (f := fun u => y u h) (n := inp.nvms)
          (fun u hu => hy u hu h hh) (Finset.mem_range.mp hw))
        (Finset.mem_range.mpr hv)
      simp only at hle
      rw [hyv] at hle
      exact hle
    have hcap := h2 h hh
    rcases hx h hh with hx0 | hx1
    · rw [hx0, zero_mul] at hcap
      linarith
    · exact hx1
  · -- capacity bounds
    intro h hh
    have hxle : x h ≤ 1 := binary_le_one hx hh
    refine ⟨le_trans (h3 h hh) hxle, ?_, h4 h hh, h5 h hh⟩
    rw [h4 h hh]
    exact le_trans (h5 h hh) hxle

/-- Concrete feasible instance used to witness claim C3: one PM, one VM,
CPU and RAM share 1/2, the VM placed on the PM. -/
def allocInputW : AllocInput where
  npms := 1
  nvms := 1
  pms_cip := fun _ => 0
  pms_category := fun _ => 0
  vms_cip := fun _ => 0
  vms_category := fun _ => 0
  pm_specs_min_power := fun _ => 100
  pm_specs_max_power := fun _ => 200
  vm_specs_cpu := fun _ _ => 1 / 2
  vm_specs_ram := fun _ _ => 1 / 2
  pm_power_states := fun _ => true
  cips_electricity_cost := fun _ => 1
  cip_pm_asleep_costs := fun _ _ => 0
  cip_pm_awake_costs := fun _ _ => 0
  cip_to_cip_vm_migration_costs := fun _ _ _ => 0

theorem claim_C3_witness :
    (binaryOn (fun _ => 1) allocInputW.npms ∧
     binaryOn2 (fun _ _ => 1) allocInputW.nvms allocInputW.npms ∧
     consExactlyOne allocInputW (fun _ _ => 1) ∧
     consCountCap allocInputW (fun _ => 1) (fun _ _ => 1) ∧
     consRam allocInputW (fun _ => 1) (fun _ _ => 1) ∧
     consCpu allocInputW (fun _ => 1 / 2) (fun _ _ => 1) ∧
     consUtil allocInputW (fun _ => 1) (fun _ => 1 / 2)) ∧
    ((∀ v < allocInputW.nvms, ∃! h, h < allocInputW.npms ∧ (1 : ℚ) = 1) ∧
     (∀ h < allocInputW.npms,
        (∃ v < allocInputW.nvms, (1 : ℚ) = 1) → (1 : ℚ) = 1) ∧
     (∀ h < allocInputW.npms,
       (∑ v ∈ Finset.range allocInputW.nvms,
         (1 : ℚ) * allocInputW.vm_specs_ram (allocInputW.vms_category v)
           (allocInputW.pms_category h)) ≤ 1 ∧
       (∑ v ∈ Finset.range allocInputW.nvms,
         (1 : ℚ) * allocInputW.vm_specs_cpu (allocInputW.vms_category v)
           (allocInputW.pms_category h)) ≤ 1 ∧
       (∑ v ∈ Finset.range allocInputW.nvms,
         (1 : ℚ) * allocInputW.vm_specs_cpu (allocInputW.vms_category v)
           (allocInputW.pms_category h)) = 1 / 2 ∧
       (1 : ℚ) / 2 ≤ 1)) := by
  have hhyp : binaryOn (fun _ => 1) allocInputW.npms ∧
      binaryOn2 (fun _ _ => 1) allocInputW.nvms allocInputW.npms ∧
      consExactlyOne allocInputW (fun _ _ => 1) ∧
      consCountCap allocInputW (fun _ => 1) (fun _ _ => 1) ∧
      consRam allocInputW (fun _ => 1) (fun _ _ => 1) ∧
      consCpu allocInputW (fun _ => 1 / 2) (fun _ _ => 1) ∧
      consUtil allocInputW (fun _ => 1) (fun _ => 1 / 2) := by
    refine ⟨?_, ?_, ?_, ?_, ?_, ?_, ?_⟩ <;> (intro i hi; norm_num [allocInputW])
  refine ⟨hhyp, ?_⟩
  have := claim_C3_placement_invariants allocInputW (fun _ => 1)
    (fun _ => 1 / 2) (fun _ _ => 1)
    hhyp.1 hhyp.2.1 hhyp.2.2.1 hhyp.2.2.2.1 hhyp.2.2.2.2.1
    hhyp.2.2.2.2.2.1 hhyp.2.2.2.2.2.2
  exact this

/-! ### The coalition evaluator (`analyze_coalitions`, claims C1 and C4)

The evaluator iterates over every non-empty subset of players, invokes
the placement solver, and fills a `coalition_info` record.  The MILP
solver, the core test (`gtpack::find_core`), the payoff division rules
and the core-membership test are external collaborators and appear as
oracles. -/

/-- Slice of the scenario record used by the evaluator. -/
structure Scenario where
  num_cips : ℕ
  num_pm_types : ℕ
  num_vm_types : ℕ
  cip_revenues : ℕ → ℕ → ℚ
  cip_num_vms : ℕ → ℕ → ℕ

/-- Coalition profit as accumulated by the evaluator (src/sim.cpp line
2335): `Σ_{cip ∈ S} Σ_v revenues[cip][v] · num_vms[cip][v]`. -/
def coalProfit (s : Scenario) (coal : List ℕ) : ℚ :=
  (coal.map (fun cip =>
    ∑ v ∈ Finset.range s.num_vm_types,
      s.cip_revenues cip v * s.cip_num_vms cip v)).sum

/-- Outcome of a placement-solver call (`optimal_allocation_info`
restricted to the fields the evaluator reads). -/
structure AllocResult where
  solved : Bool
  cost : ℚ

/-- Per-coalition record (`coalition_info`); payoffs are a NaN-aware
map from player id (`none` both for an absent entry and for NaN). -/
structure CoalitionEntry where
  value : ℚ
  core_empty : Bool
  payoffs_in_core : Bool
  payoffs : ℕ → Option ℚ

/-- Sentinel value written for unsolved coalitions (src/sim.cpp line
2503): `-std::numeric_limits<double>::min()`, the smallest positive
normal double `2^{-1022}` negated. -/
def sentinelValue : ℚ := -(1 / 2 ^ 1022)

/-- External collaborators of the evaluator: the MILP solver and the
gtpack game-theory routines. -/
structure EvalOracles where
  solver : List ℕ → AllocResult
  coreEmpty : List ℕ → Bool
  payoffRule : List ℕ → ℕ → Option ℚ
  inCore : List ℕ → Bool

/-- One iteration of the evaluator loop (src/sim.cpp lines 2348-2511):
on `solved`, the characteristic value is `profit − cost`, the core test
runs and the payoff rule fills the payoff map; otherwise the record
keeps its constructor defaults (`core_empty = true`,
`payoffs_in_core = false`, empty payoff map) and the value becomes the
sentinel. -/
def evalCoalition (s : Scenario) (orc : EvalOracles) (coal : List ℕ) :
    CoalitionEntry :=
  let r := orc.solver coal
  if r.solved then
    { value := coalProfit s coal - r.cost
      core_empty := orc.coreEmpty coal
      payoffs_in_core := if orc.coreEmpty coal then false else orc.inCore coal
      payoffs := orc.payoffRule coal }
  else
    { value := sentinelValue
      core_empty := true
      payoffs_in_core := false
      payoffs := fun _ => none }

/-- Players of the subset whose characteristic bitmask is `m`. -/
def maskPlayers (n m : ℕ) : List ℕ :=
  (List.range n).filter (fun i => m.testBit i)

/-- Modelled from the spec: `dcs::algorithm::lexicographic_subset`
(dcsxx-commons, not under src/) enumerates all subsets of `{0..n−1}` in
lexicographic order of their characteristic bit-vectors, here with the
empty set skipped (the evaluator constructs it with `include_empty =
false`).  The claims proved below do not depend on the order, only on
each non-empty subset appearing exactly once. -/
def subsetsLex (n : ℕ) : List (List ℕ) :=
  (List.range' 1 (2 ^ n - 1)).map (maskPlayers n)

/-- The evaluator over all non-empty coalitions: a total function — no
solver outcome can abort the loop. -/
def analyzeCoalitions (s : Scenario) (orc : EvalOracles) :
    List (ℕ × CoalitionEntry) :=
  (subsetsLex s.num_cips).map (fun coal => (cidOf coal, evalCoalition s orc coal))

lemma cidOf_append (a b : List ℕ) : cidOf (a ++ b) = cidOf a + cidOf b := by
  unfold cidOf
  rw [List.map_append, List.sum_append]

lemma cidOf_maskPlayers (n : ℕ) : ∀ m < 2 ^ n, cidOf (maskPlayers n m) = m := by
  induction n with
  | zero =>
      intro m hm
      interval_cases m
      rfl
  | succ n ih =>
      intro m hm
      have hsplit : maskPlayers (n + 1) m =
          (List.range n).filter (fun i => m.testBit i) ++
            (List.filter (fun i => m.testBit i) [n]) := by
        unfold maskPlayers
        rw [List.range_succ, List.filter_append]
      have hlow : (List.range n).filter (fun i => m.testBit i) =
          maskPlayers n (m % 2 ^ n) := by
        unfold maskPlayers
        refine List.filter_congr (fun i hi => ?_)
        have hi' : i < n := List.mem_range.mp hi
        rw [Nat.testBit_mod_two_pow]
        simp [hi']
      have hdiv : m / 2 ^ n < 2 := by
        refine Nat.div_lt_of_lt_mul ?_
        rw [← pow_succ]
        exact hm
      have hbit : m.testBit n = decide (m / 2 ^ n % 2 = 1) :=
        Nat.testBit_to_div_mod
      have hmod : m / 2 ^ n % 2 = m / 2 ^ n := Nat.mod_eq_of_lt hdiv
      have hcases : m / 2 ^ n = 0 ∨ m / 2 ^ n = 1 := by omega
      have hhigh : cidOf (List.filter (fun i => m.testBit i) [n]) =
          m / 2 ^ n * 2 ^ n := by
        rcases hcases with h0 | h1
        · have hb : m.testBit n = false := by rw [hbit, hmod, h0]; simp
          simp [hb, cidOf, h0]
        · have hb : m.testBit n = true := by rw [hbit, hmod, h1]; simp
          simp [hb, cidOf, h1]
      rw [hsplit, cidOf_append, hlow, ih (m % 2 ^ n) (Nat.mod_lt m (by positivity)),
        hhigh]
      exact Nat.mod_add_div' m (2 ^ n)

/-- Claim C1: for every coalition whose placement problem the solver
reports solved, the evaluator sets
`v(S) = profit(S) − cost(S)` with `profit(S) = Σ_{p∈S} Σ_v r(p,v) ·
nVMs(p,v)` and `cost(S)` the solver's cost field. -/
theorem claim_C1_value_is_profit_minus_cost (s : Scenario) (orc : EvalOracles)
    (coal : List ℕ) (hs : (orc.solver coal).solved = true) :
    (evalCoalition s orc coal).value =
      (coal.map (fun cip =>
        ∑ v ∈ Finset.range s.num_vm_types,
          s.cip_revenues cip v * s.cip_num_vms cip v)).sum -
      (orc.solver coal).cost := by
  simp [evalCoalition, coalProfit, hs]

/-- Concrete scenario used by the evaluator witnesses. -/
def scenarioW : Scenario where
  num_cips := 2
  num_pm_types := 1
  num_vm_types := 1
  cip_revenues := fun _ _ => 2
  cip_num_vms := fun _ _ => 3

/-- Oracle whose solver solves every coalition at cost 5. -/
def oraclesSolvedW : EvalOracles where
  solver := fun _ => { solved := true, cost := 5 }
  coreEmpty := fun _ => false
  payoffRule := fun _ _ => some 0
  inCore := fun _ => true

theorem claim_C1_witness :
    (oraclesSolvedW.solver [0, 1]).solved = true ∧
    (evalCoalition scenarioW oraclesSolvedW [0, 1]).value =
      ([0, 1].map (fun cip =>
        ∑ v ∈ Finset.range scenarioW.num_vm_types,
          scenarioW.cip_revenues cip v * scenarioW.cip_num_vms cip v)).sum -
      (oraclesSolvedW.solver [0, 1]).cost :=
  ⟨rfl, claim_C1_value_is_profit_minus_cost scenarioW oraclesSolvedW [0, 1] rfl⟩

/-- Claim C4: an unsolved coalition does not abort the run — its value
becomes the sentinel `−2^{−1022}` (smallest positive normal double,
negated), its core is recorded empty, its payoff vector is recorded as
not in the core, and the evaluator still writes an entry for every
coalition id in `[1, 2^N − 1]` whatever the solver answers. -/
theorem claim_C4_infeasible_handling (s : Scenario) (orc : EvalOracles)
    (coal : List ℕ) (hs : (orc.solver coal).solved = false) :
    (evalCoalition s orc coal).value = -(1 / 2 ^ 1022) ∧
    (evalCoalition s orc coal).core_empty = true ∧
    (evalCoalition s orc coal).payoffs_in_core = false ∧
    (analyzeCoalitions s orc).length = 2 ^ s.num_cips - 1 ∧
    ∀ m, 0 < m → m < 2 ^ s.num_cips →
      (m, evalCoalition s orc (maskPlayers s.num_cips m)) ∈
        analyzeCoalitions s orc := by
  refine ⟨?_, ?_, ?_, ?_, ?_⟩
  · simp [evalCoalition, hs, sentinelValue]
  · simp [evalCoalition, hs]
  · simp [evalCoalition, hs]
  · unfold analyzeCoalitions subsetsLex
    simp
  · intro m hm0 hm
    unfold analyzeCoalitions
    have hmem : maskPlayers s.num_cips m ∈ subsetsLex s.num_cips := by
      unfold subsetsLex
      refine List.mem_map.mpr ⟨m, ?_, rfl⟩
      refine List.mem_range'_1.mpr ⟨hm0, ?_⟩
      omega
    have hmm : (cidOf (maskPlayers s.num_cips m),
        evalCoalition s orc (maskPlayers s.num_cips m)) ∈
          (subsetsLex s.num_cips).map
            (fun coal => (cidOf coal, evalCoalition s orc coal)) :=
      List.mem_map_of_mem _ hmem
    rw [cidOf_maskPlayers s.num_cips m hm] at hmm
    exact hmm

/-- Oracle whose solver reports every coalition unsolved. -/
def oraclesUnsolvedW : EvalOracles where
  solver := fun _ => { solved := false, cost := 0 }
  coreEmpty := fun _ => true
  payoffRule := fun _ _ => none
  inCore := fun _ => false

theorem claim_C4_witness :
    (oraclesUnsolvedW.solver [0]).solved = false ∧
    ((evalCoalition scenarioW oraclesUnsolvedW [0]).value = -(1 / 2 ^ 1022) ∧
     (evalCoalition scenarioW oraclesUnsolvedW [0]).core_empty = true ∧
     (evalCoalition scenarioW oraclesUnsolvedW [0]).payoffs_in_core = false ∧
     (analyzeCoalitions scenarioW oraclesUnsolvedW).length =
       2 ^ scenarioW.num_cips - 1 ∧
     ∀ m, 0 < m → m < 2 ^ scenarioW.num_cips →
       (m, evalCoalition scenarioW oraclesUnsolvedW
          (maskPlayers scenarioW.num_cips m)) ∈
         analyzeCoalitions scenarioW oraclesUnsolvedW) :=
  ⟨rfl, claim_C4_infeasible_handling scenarioW oraclesUnsolvedW [0] rfl⟩

/-! ### The Nash-stable partition selector (claim C5)

The selector receives the table of visited coalitions.  Because
`analyze_coalitions` fills an entry for *every* non-empty coalition, the
table is modelled as a total function from coalition ids; payoff maps of
infeasible coalitions are empty (`fun _ => none`, see
`evalCoalition`). -/

/-- Payoff of player `p` under partition `subs`: the payoff entry of `p`
in the block containing `p` (the source copies it into
`candidate_partition.payoffs`, inserting NaN when the entry is absent;
`none` models both NaN and absence). -/
def playerCoalPayoff (visited : ℕ → CoalitionEntry) (subs : List (List ℕ))
    (p : ℕ) : Option ℚ :=
  match subs.find? (fun sub => sub.contains p) with
  | some sub => (visited (cidOf sub)).payoffs p
  | none => none

/-- Rejection test of one move target (src/sim.cpp lines 2014-2015 and
2039-2040): the player's move to the coalition with id `tcid` makes the
partition non-Nash-stable when the target coalition's payoff map has no
entry for `p`, or when its entry is definitely greater than the player's
payoff under the current partition. -/
def nashRejectTarget (eps : ℚ) (visited : ℕ → CoalitionEntry)
    (cand : Option ℚ) (tcid : ℕ) (p : ℕ) : Bool :=
  match (visited tcid).payoffs p with
  | none => true
  | some w => dgtO eps (some w) cand

/-- Per-player Nash-stability test (src/sim.cpp lines 1989-2048): check
every block not containing `p` (augmented with `p`), then — unless `p`
already sits in a singleton block or the singleton id is among the
partition's blocks — the singleton coalition `{p}`. -/
def nashStableForPlayer (eps : ℚ) (visited : ℕ → CoalitionEntry)
    (subs : List (List ℕ)) (p : ℕ) : Bool :=
  if subs.any (fun sub =>
      !sub.contains p &&
        nashRejectTarget eps visited (playerCoalPayoff visited subs p)
          (cidOf (p :: sub)) p)
  then false
  else if subs.any (fun sub => sub.contains p && sub.length == 1) then true
  else if (subs.map cidOf).contains (cidOf [p]) then true
  else !nashRejectTarget eps visited (playerCoalPayoff visited subs p)
    (cidOf [p]) p

/-- Acceptance test of the Nash-stable selector for one candidate
partition (the body of the enumeration loop, src/sim.cpp lines
1984-2054). -/
def nashAccept (eps : ℚ) (visited : ℕ → CoalitionEntry) (np : ℕ)
    (subs : List (List ℕ)) : Bool :=
  (List.range np).all (nashStableForPlayer eps visited subs)

/-- Acceptance test as claim C5 words it: a partition is accepted iff
for every player `p`, every other coalition `P_j` of the partition and
the empty coalition, the payoff of `p` under the partition is greater or
equal — under the epsilon comparison, so a target that is not definitely
better never rejects — than the payoff of `p` in `P_j ∪ {p}` (NaN/absent
target payoffs are never definitely better). -/
def nashAcceptClaim (eps : ℚ) (visited : ℕ → CoalitionEntry) (np : ℕ)
    (subs : List (List ℕ)) : Bool :=
  (List.range np).all (fun p =>
    let cand := playerCoalPayoff visited subs p
    subs.all (fun sub =>
      sub.contains p ||
        !dgtO eps ((visited (cidOf (p :: sub))).payoffs p) cand) &&
    !dgtO eps ((visited (cidOf [p])).payoffs p) cand)

/-- Coalition table for the C5 counterexample, as `analyze_coalitions`
would produce it for two players whose singletons are feasible (payoff
10 each) while the grand coalition is infeasible: the grand coalition's
record carries the sentinel value, an empty core flag and an *empty
payoff map*. -/
def visitedNashW : ℕ → CoalitionEntry := fun cid =>
  if cid = 1 then
    { value := 10, core_empty := false, payoffs_in_core := true,
      payoffs := fun p => if p = 0 then some 10 else none }
  else if cid = 2 then
    { value := 10, core_empty := false, payoffs_in_core := true,
      payoffs := fun p => if p = 1 then some 10 else none }
  else
    { value := sentinelValue, core_empty := true, payoffs_in_core := false,
      payoffs := fun _ => none }

/-- Counterexample to claim C5: on the singleton partition `{{0},{1}}`
with an infeasible grand coalition, the selector rejects (each player's
move target `{0,1}` has an empty payoff map, and the source treats a
missing payoff entry as a reason to reject), while the claim's
characterization — reject only when some move target's payoff is
definitely better — accepts, since a NaN/absent payoff is never
definitely better.  So the claimed "if and only if" fails. -/
theorem claim_C5_counterexample :
    nashAccept 0 visitedNashW 2 [[0], [1]] = false ∧
    nashAcceptClaim 0 visitedNashW 2 [[0], [1]] = true := by
  constructor
  · rfl
  · simp only [nashAcceptClaim]
    rw [show List.range 2 = [0, 1] from rfl]
    norm_num [playerCoalPayoff, visitedNashW, cidOf, dgtO,
      definitelyGreater, definitelyLess, List.find?]

lemma nashRejectTarget_eq_false (eps : ℚ) (visited : ℕ → CoalitionEntry)
    (cand : Option ℚ) (tcid p : ℕ) :
    nashRejectTarget eps visited cand tcid p = false ↔
      ((visited tcid).payoffs p ≠ none ∧
       dgtO eps ((visited tcid).payoffs p) cand = false) := by
  unfold nashRejectTarget
  cases h : (visited tcid).payoffs p <;> simp [h]

/-- Target condition of the amended claim C5: the target coalition's
payoff map carries an entry for `p`, and that entry is not definitely
greater than the player's payoff under the candidate partition. -/
def nashTargetOK (eps : ℚ) (visited : ℕ → CoalitionEntry)
    (subs : List (List ℕ)) (tcid p : ℕ) : Prop :=
  (visited tcid).payoffs p ≠ none ∧
  dgtO eps ((visited tcid).payoffs p) (playerCoalPayoff visited subs p) = false

lemma nashStableForPlayer_iff (eps : ℚ) (visited : ℕ → CoalitionEntry)
    (subs : List (List ℕ)) (p : ℕ) :
    nashStableForPlayer eps visited subs p = true ↔
      ((∀ sub ∈ subs, p ∉ sub → nashTargetOK eps visited subs (cidOf (p :: sub)) p) ∧
       ((¬ ∃ sub ∈ subs, p ∈ sub ∧ sub.length = 1) →
        cidOf [p] ∉ subs.map cidOf →
        nashTargetOK eps visited subs (cidOf [p]) p)) := by
  unfold nashStableForPlayer
  cases hA : subs.any (fun sub =>
      !sub.contains p &&
        nashRejectTarget eps visited (playerCoalPayoff visited subs p)
          (cidOf (p :: sub)) p) with
  | true =>
      simp only [if_true]
      constructor
      · intro h; cases h
      · intro hR
        exfalso
        rcases List.any_eq_true.mp hA with ⟨sub, hmem, hsub⟩
        rw [Bool.and_eq_true] at hsub
        obtain ⟨hnc, hrej⟩ := hsub
        have hpn : p ∉ sub := by
          rw [Bool.not_eq_true'] at hnc
          simpa using hnc
        have hok := hR.1 sub hmem hpn
        have : nashRejectTarget eps visited (playerCoalPayoff visited subs p)
            (cidOf (p :: sub)) p = false :=
          (nashRejectTarget_eq_false _ _ _ _ _).mpr hok
        rw [this] at hrej
        cases hrej
  | false =>
      simp only [Bool.false_eq_true, if_false]
      have hAll : ∀ sub ∈ subs, p ∉ sub →
          nashTargetOK eps visited subs (cidOf (p :: sub)) p := by
        intro sub hmem hpn
        have hnone := List.any_eq_true.not.mp (by rw [hA]; simp)
        push_neg at hnone
        have hcon : sub.contains p = false := by simpa using hpn
        have hz := hnone sub hmem
        rw [hcon] at hz
        simp only [Bool.not_false, Bool.true_and, ne_eq, Bool.not_eq_true] at hz
        exact (nashRejectTarget_eq_false _ _ _ _ _).mp hz
      cases hB : subs.any (fun sub => sub.contains p && sub.length == 1) with
      | true =>
          simp only [if_true]
          have hex : ∃ sub ∈ subs, p ∈ sub ∧ sub.length = 1 := by
            rcases List.any_eq_true.mp hB with ⟨sub, hmem, hsub⟩
            rw [Bool.and_eq_true] at hsub
            exact ⟨sub, hmem, List.elem_iff.mp hsub.1, beq_iff_eq.mp hsub.2⟩
          constructor
          · intro _
            exact ⟨hAll, fun hne _ => absurd hex hne⟩
          · intro _; trivial
      | false =>
          simp only [Bool.false_eq_true, if_false]
          cases hC : (subs.map cidOf).contains (cidOf [p]) with
          | true =>
              simp only [if_true]
              constructor
              · intro _
                refine ⟨hAll, fun _ hni => absurd (List.elem_iff.mp hC) hni⟩
              · intro _; trivial
          | false =>
              simp only [Bool.false_eq_true, if_false, Bool.not_eq_true']
              rw [nashRejectTarget_eq_false]
              constructor
              · intro hok
                exact ⟨hAll, fun _ _ => hok⟩
              · intro hR
                refine hR.2 ?_ ?_
                · intro hexx
                  obtain ⟨sub, hmem, hpm, hlen⟩ := hexx
                  have hcb : sub.contains p = true := List.elem_iff.mpr hpm
                  have hlb : (sub.length == 1) = true := beq_iff_eq.mpr hlen
                  have hB' : (subs.any fun s => s.contains p && s.length == 1) = true :=
                    List.any_eq_true.mpr ⟨sub, hmem, by
                      show (sub.contains p && (sub.length == 1)) = true
                      rw [hcb, hlb]
                      rfl⟩
                  rw [hB] at hB'
                  cases hB'
                · intro hmemc
                  have hC' : (subs.map cidOf).contains (cidOf [p]) = true :=
                    List.elem_iff.mpr hmemc
                  rw [hC] at hC'
                  cases hC'

/-- Claim C5, amended: the Nash-stable selector accepts a partition iff
for every player `p` and every block `P_j` not containing `p`, the
augmented coalition `P_j ∪ {p}` has a payoff *entry* for `p` that is not
definitely greater than `p`'s payoff under the partition, and — unless
`p` already sits in a singleton block (or the singleton id already
occurs among the block ids) — likewise for the singleton `{p}`.  A move
target whose payoff map lacks an entry for `p` (an infeasible coalition)
therefore *does* cause rejection even though its payoff is not better. -/
theorem claim_C5_amended_nash_acceptance (eps : ℚ)
    (visited : ℕ → CoalitionEntry) (np : ℕ) (subs : List (List ℕ)) :
    nashAccept eps visited np subs = true ↔
      ∀ p < np,
        (∀ sub ∈ subs, p ∉ sub →
          nashTargetOK eps visited subs (cidOf (p :: sub)) p) ∧
        ((¬ ∃ sub ∈ subs, p ∈ sub ∧ sub.length = 1) →
         cidOf [p] ∉ subs.map cidOf →
         nashTargetOK eps visited subs (cidOf [p]) p) := by
  unfold nashAccept
  rw [List.all_eq_true]
  constructor
  · intro h p hp
    exact (nashStableForPlayer_iff eps visited subs p).mp
      (h p (List.mem_range.mpr hp))
  · intro h p hp
    exact (nashStableForPlayer_iff eps visited subs p).mpr
      (h p (List.mem_range.mp hp))

/-! ### Set-partition enumeration (component D) and the merge/split
selector (claim C6) -/

/-- Modelled from the spec: suffix extension step of the
restricted-growth-string generator (`dcs::algorithm::
lexicographic_partition`, dcsxx-commons, not under src/; spec sections
4.C/4.D: Knuth TAOCP 7.2.1.5, restricted-growth strings emitted in
lexicographic order).  `rgsExt k mx` lists, in lexicographic order, the
length-`k` suffixes whose entries may reach `mx + 1`, where `mx` is the
maximum of the prefix already fixed. -/
def rgsExt : ℕ → ℕ → List (List ℕ)
  | 0, _ => [[]]
  | k + 1, mx =>
      (List.range (mx + 2)).flatMap
        (fun a => (rgsExt k (max mx a)).map (fun t => a :: t))

/-- Modelled from the spec: all restricted-growth strings of length `n`
in lexicographic order; the first entry of a non-empty string is 0. -/
def allRGS : ℕ → List (List ℕ)
  | 0 => [[]]
  | k + 1 => (rgsExt k 0).map (fun t => 0 :: t)

/-- Blocks of the partition encoded by a restricted-growth string over
the given element list: block `j` collects the elements whose string
entry is `j`. -/
def partitionFromRGS (elems : List ℕ) (rgs : List ℕ) : List (List ℕ) :=
  (List.range (rgs.foldr max 0 + 1)).map
    (fun j => (elems.zip rgs).filterMap
      (fun pr => if pr.2 = j then some pr.1 else none))

/-- Modelled from the spec: the sequence of set partitions of `elems`
produced by repeated `next_partition` calls, in the generator's
lexicographic order.  Its first element is the single-block partition
(all-zero string). -/
def allPartitionsOf (elems : List ℕ) : List (List (List ℕ)) :=
  (allRGS elems.length).map (partitionFromRGS elems)

/-- Split check of the merge/split selector for one block (src/sim.cpp
lines 1820-1849): the source calls `next_partition` exactly once, so
`svC` is the value sum of the *first* enumerated partition of the block
only, and the block passes unless `v(P_i)` is definitely less than that
single sum. -/
def splitCheckOK (eps : ℚ) (visited : ℕ → CoalitionEntry)
    (sub : List ℕ) : Bool :=
  !definitelyLess eps (visited (cidOf sub)).value
    ((((allPartitionsOf sub).headD []).map
      (fun c => (visited (cidOf c)).value)).sum)

/-- Players of the coalition with the given id
(`gtpack::players_coalition(np, cid).players()`). -/
def playersOfCid (np cid : ℕ) : List ℕ :=
  (List.range np).filter (fun p => cid.testBit p)

/-- Merge check of the merge/split selector (src/sim.cpp lines
1871-1909): for every non-empty family of blocks, the family's value sum
must not be definitely less than the value of the union coalition. -/
def mergeCheckOK (eps : ℚ) (visited : ℕ → CoalitionEntry) (np : ℕ)
    (P : List ℕ) : Bool :=
  (subsetsLex P.length).all (fun idxs =>
    !definitelyLess eps
      (((idxs.map (fun i => P.getD i 0)).map
        (fun cid => (visited cid).value)).sum)
      (visited (cidOf ((List.range np).filter
        (fun p => (idxs.map (fun i => P.getD i 0)).any
          (fun cid => cid.testBit p))))).value)

/-- Acceptance test of the merge/split (D_hp-stable) selector for one
candidate partition (src/sim.cpp lines 1771-1915): the split phase over
the blocks followed by the merge phase over block families. -/
def mergeSplitAccept (eps : ℚ) (visited : ℕ → CoalitionEntry) (np : ℕ)
    (subs : List (List ℕ)) : Bool :=
  subs.all (splitCheckOK eps visited) &&
  mergeCheckOK eps visited np (subs.map cidOf)

/-- Coalition table for the C6 failing input: `v({0}) = v({1}) = 10` and
`v({0,1}) = 0`, so the block `{0,1}` should be split. -/
def visitedMergeSplitW : ℕ → CoalitionEntry := fun cid =>
  if cid = 3 then
    { value := 0, core_empty := true, payoffs_in_core := false,
      payoffs := fun _ => some 0 }
  else
    { value := 10, core_empty := false, payoffs_in_core := true,
      payoffs := fun _ => some 10 }

/-- Claim C6 describes the intended split check (also stated by the
comment right above the code): compare `v(P_i)` with the value sum of
*every* partition of `P_i`.  The code calls the partition generator a
single time, so it only ever compares against the first enumerated
partition — the single-block partition `{P_i}` itself — and therefore
accepts the partition `{{0,1}}` of this game even though the split
`{{0},{1}}` has a strictly larger value sum (`v({0,1}) = 0 <
10 + 10`). -/
theorem claim_C6_split_check_failing_input :
    mergeSplitAccept 0 visitedMergeSplitW 2 [[0, 1]] = true ∧
    [[0], [1]] ∈ allPartitionsOf [0, 1] ∧
    definitelyLess 0 (visitedMergeSplitW (cidOf [0, 1])).value
      ((visitedMergeSplitW (cidOf [0])).value +
        (visitedMergeSplitW (cidOf [1])).value) = true := by
  refine ⟨?_, ?_, ?_⟩
  · norm_num [mergeSplitAccept, splitCheckOK, mergeCheckOK, subsetsLex,
      allPartitionsOf, allRGS, rgsExt, partitionFromRGS, maskPlayers,
      visitedMergeSplitW, cidOf, definitelyLess, List.all_cons,
      List.range_succ, List.head?, Nat.testBit_succ, Nat.testBit_zero,
      List.zip, List.zipWith, List.filterMap]
  · norm_num [allPartitionsOf, allRGS, rgsExt, partitionFromRGS,
      List.range_succ, List.zip, List.zipWith, List.filterMap]
  · norm_num [visitedMergeSplitW, cidOf, definitelyLess]

/-! ### The Pareto-optimal partition selector (claim C8) -/

/-- Per-partition scan of the Pareto selector (src/sim.cpp lines
2127-2142): walk the players left to right; while the candidate payoff
beats the running entry (or the running entry is NaN) overwrite the
running entry; at the first player where it does not, mark the candidate
rejected and stop — the remaining running entries are left untouched. -/
def paretoScan : List (Option ℚ) → List (Option ℚ) →
    List (Option ℚ) × Bool
  | b :: bs, c :: cs =>
      if b.isNone || ogt c b then
        ((paretoScan bs cs).1.cons c, (paretoScan bs cs).2)
      else (b :: bs, false)
  | bs, _ => (bs, true)

/-- Candidate payoff vector of a partition, player by player (the
source copies `candidate_partition.payoffs` indexed by player id). -/
def candPayoffs (visited : ℕ → CoalitionEntry) (subs : List (List ℕ))
    (np : ℕ) : List (Option ℚ) :=
  (List.range np).map (playerCoalPayoff visited subs)

/-- The Pareto-optimal selector (src/sim.cpp lines 2062-2152): fold the
scan over all partitions in enumeration order, starting from an all-NaN
running vector; return the final running vector and the accepted
partitions. -/
def paretoRun (visited : ℕ → CoalitionEntry) (np : ℕ) :
    List (Option ℚ) × List (List (List ℕ)) :=
  (allPartitionsOf (List.range np)).foldl
    (fun acc subs =>
      let r := paretoScan acc.1 (candPayoffs visited subs np)
      (r.1, if r.2 then acc.2 ++ [subs] else acc.2))
    (List.replicate np none, [])

/-- NaN-aware pointwise maximum (the claim's "per-player max"): NaN is
absorbed by any real value. -/
def maxO : Option ℚ → Option ℚ → Option ℚ
  | none, b => b
  | a, none => a
  | some a, some b => some (max a b)

/-- Per-player maximum payoff over a sequence of payoff vectors — the
running vector that claim C8 asserts the selector maintains. -/
def runningMaxSpec (np : ℕ) (vecs : List (List (Option ℚ))) :
    List (Option ℚ) :=
  vecs.foldl (fun acc v => List.zipWith maxO acc v) (List.replicate np none)

/-- Coalition table for the C8 counterexample (3 players): the grand
coalition pays everyone 10, the block `{0,1}` pays player 1 the large
payoff 100 (and player 0 nothing), every other block pays 0. -/
def visitedParetoW : ℕ → CoalitionEntry := fun cid =>
  if cid = 7 then
    { value := 30, core_empty := false, payoffs_in_core := true,
      payoffs := fun _ => some 10 }
  else if cid = 3 then
    { value := 100, core_empty := false, payoffs_in_core := true,
      payoffs := fun p => if p = 1 then some 100 else some 0 }
  else
    { value := 0, core_empty := false, payoffs_in_core := true,
      payoffs := fun _ => some 0 }

/-- Counterexample to claim C8: after enumerating all five partitions of
three players, the selector's running vector is `(10, 10, 10)` — the
second partition `{{0,1},{2}}` failed already at player 0, so player 1's
payoff 100 was never folded in — while the per-player maximum over every
enumerated partition is `(10, 100, 10)`.  The claim that the running
vector holds the per-player max over all partitions seen is false. -/
theorem claim_C8_counterexample :
    (paretoRun visitedParetoW 3).1 = [some 10, some 10, some 10] ∧
    runningMaxSpec 3 ((allPartitionsOf (List.range 3)).map
      (fun subs => candPayoffs visitedParetoW subs 3)) =
        [some 10, some 100, some 10] ∧
    ([some 10, some 10, some 10] : List (Option ℚ)) ≠
      [some 10, some 100, some 10] := by
  refine ⟨?_, ?_, by simp⟩
  · norm_num [paretoRun, paretoScan, candPayoffs, playerCoalPayoff,
      visitedParetoW, cidOf, ogt, allPartitionsOf, allRGS, rgsExt,
      partitionFromRGS, List.range_succ, List.zip, List.zipWith,
      List.filterMap, List.find?]
  · norm_num [runningMaxSpec, maxO, candPayoffs, playerCoalPayoff,
      visitedParetoW, cidOf, allPartitionsOf, allRGS, rgsExt,
      partitionFromRGS, List.range_succ, List.zip, List.zipWith,
      List.filterMap, List.find?]

/-- Claim C8, amended: the scan of the Pareto selector accepts a
candidate exactly when the candidate strictly dominates the running
vector component-wise (a NaN running entry counting as dominated), and
on acceptance the running vector becomes the candidate.  On rejection
the scan stops at the first non-dominating player, so the running vector
holds the per-player max only up to that player — not over every
partition enumerated so far (see the counterexample). -/
theorem claim_C8_amended_pareto_scan (best cand : List (Option ℚ))
    (hlen : best.length = cand.length) :
    ((paretoScan best cand).2 = true ↔
      ∀ i < best.length,
        best.getD i none = none ∨
          ogt (cand.getD i none) (best.getD i none) = true) ∧
    ((paretoScan best cand).2 = true → (paretoScan best cand).1 = cand) := by
  induction best generalizing cand with
  | nil =>
      cases cand with
      | nil => simp [paretoScan]
      | cons c cs => cases hlen
  | cons b bs ih =>
      cases cand with
      | nil => cases hlen
      | cons c cs =>
          have hlen' : bs.length = cs.length := by
            simpa using hlen
          rcases ih cs hlen' with ⟨ihiff, ihupd⟩
          by_cases hcond : (b.isNone || ogt c b) = true
          · have hscan : paretoScan (b :: bs) (c :: cs) =
                ((paretoScan bs cs).1.cons c, (paretoScan bs cs).2) := by
              simp only [paretoScan]
              rw [if_pos hcond]
            rw [hscan]
            have hhead : b = none ∨ ogt c b = true := by
              have hc2 := hcond
              rw [Bool.or_eq_true] at hc2
              rcases hc2 with hz | hz
              · exact Or.inl (Option.isNone_iff_eq_none.mp hz)
              · exact Or.inr hz
            constructor
            · rw [ihiff]
              constructor
              · intro hall i hi
                cases i with
                | zero => simpa using hhead
                | succ j =>
                    have hj : j < bs.length := by simpa using hi
                    simpa using hall j hj
              · intro hall j hj
                have := hall (j + 1) (by simpa using hj)
                simpa using this
            · intro hacc
              have := ihupd hacc
              simp [this]
          · have hscan : paretoScan (b :: bs) (c :: cs) = (b :: bs, false) := by
              simp only [paretoScan]
              rw [if_neg hcond]
            rw [hscan]
            constructor
            · simp only [Bool.false_eq_true, false_iff]
              intro hall
              have h0 := hall 0 (by simp)
              simp only [List.getD_cons_zero] at h0
              apply hcond
              rcases h0 with hz | hz
              · rw [hz]; simp
              · rw [hz]; simp
            · intro hacc; cases hacc

theorem claim_C8_amended_witness :
    ([none, some 1] : List (Option ℚ)).length =
      ([some 5, some 2] : List (Option ℚ)).length ∧
    (((paretoScan [none, some 1] [some 5, some 2]).2 = true ↔
       ∀ i < ([none, some 1] : List (Option ℚ)).length,
         ([none, some 1] : List (Option ℚ)).getD i none = none ∨
           ogt (([some 5, some 2] : List (Option ℚ)).getD i none)
             (([none, some 1] : List (Option ℚ)).getD i none) = true) ∧
     ((paretoScan [none, some 1] [some 5, some 2]).2 = true →
       (paretoScan [none, some 1] [some 5, some 2]).1 = [some 5, some 2])) :=
  ⟨rfl, claim_C8_amended_pareto_scan [none, some 1] [some 5, some 2] rfl⟩

/-! ### Parsing of `cip_to_cip_vm_migration_costs` (claim C7)

The relevant branch of `make_scenario` (src/sim.cpp lines 624-671) runs
an outer loop over `c < num_cips`, then an *inner* loop that redeclares
`c` over `0..num_cips-1` and reads the streamed numbers into
`s.cip_to_cip_vm_migration_costs[c][c][p]` for `p < num_pm_types`: the
write target indexes the inner coalition id twice (and the innermost
index even runs over PM types).  We model the loop at the level of the
sequence of written table slots; each slot receives the next value of
the input stream. -/

/-- The sequence of table slots `(src, dst, inner)` written by the
parser branch, in program order. -/
def migWriteTargets (num_cips num_pm_types : ℕ) : List (ℕ × ℕ × ℕ) :=
  (List.range num_cips).flatMap (fun _outer =>
    (List.range num_cips).flatMap (fun c =>
      (List.range num_pm_types).map (fun p => (c, c, p))))

/-- Functional update of one slot of the 3-D table. -/
def writeTable (t : ℕ → ℕ → ℕ → ℚ) (idx : ℕ × ℕ × ℕ) (w : ℚ) :
    ℕ → ℕ → ℕ → ℚ :=
  fun a b c => if a = idx.1 ∧ b = idx.2.1 ∧ c = idx.2.2 then w else t a b c

/-- Apply a sequence of slot writes, consuming the value stream in
order starting at stream position `i`. -/
def applyWrites (vals : ℕ → ℚ) : List (ℕ × ℕ × ℕ) → ℕ →
    (ℕ → ℕ → ℕ → ℚ) → (ℕ → ℕ → ℕ → ℚ)
  | [], _, t => t
  | idx :: rest, i, t => applyWrites vals rest (i + 1) (writeTable t idx (vals i))

/-- The migration-cost table the parser branch leaves in memory, given
the stream of numbers in the file and the initial table contents. -/
def parseMigrationCosts (num_cips num_pm_types : ℕ) (vals : ℕ → ℚ)
    (init : ℕ → ℕ → ℕ → ℚ) : ℕ → ℕ → ℕ → ℚ :=
  applyWrites vals (migWriteTargets num_cips num_pm_types) 0 init

lemma migWriteTargets_diagonal (num_cips num_pm_types : ℕ) :
    ∀ w ∈ migWriteTargets num_cips num_pm_types, w.1 = w.2.1 := by
  intro w hw
  unfold migWriteTargets at hw
  rcases List.mem_flatMap.mp hw with ⟨o, _, hw2⟩
  rcases List.mem_flatMap.mp hw2 with ⟨c, _, hw3⟩
  rcases List.mem_map.mp hw3 with ⟨p, _, hpw⟩
  rw [← hpw]

lemma applyWrites_offdiagonal (vals : ℕ → ℚ) (l : List (ℕ × ℕ × ℕ))
    (hdiag : ∀ w ∈ l, w.1 = w.2.1) :
    ∀ (i : ℕ) (t : ℕ → ℕ → ℕ → ℚ) (c1 c2 v : ℕ), c1 ≠ c2 →
      applyWrites vals l i t c1 c2 v = t c1 c2 v := by
  induction l with
  | nil => intro i t c1 c2 v _; rfl
  | cons idx rest ih =>
      intro i t c1 c2 v hne
      have hrest : ∀ w ∈ rest, w.1 = w.2.1 :=
        fun w hw => hdiag w (List.mem_cons_of_mem idx hw)
      have hstep := ih hrest (i + 1) (writeTable t idx (vals i)) c1 c2 v hne
      unfold applyWrites
      rw [hstep]
      unfold writeTable
      have hidx : idx.1 = idx.2.1 := hdiag idx (List.mem_cons_self idx rest)
      rw [if_neg]
      intro hcc
      exact hne (hcc.1.trans (hidx.trans hcc.2.1.symm))

/-- Claim C7: the parser branch for the `N×N×V` migration-cost table
only ever writes diagonal slots — every written slot is of the form
`G[c][c][·]` — so for distinct players `c1 ≠ c2` the in-memory entry
`G[c1][c2][v]` is never assigned from the file and keeps its prior
contents. -/
theorem claim_C7_migration_parse_diagonal (num_cips num_pm_types : ℕ)
    (vals : ℕ → ℚ) (init : ℕ → ℕ → ℕ → ℚ) (c1 c2 v : ℕ) (hne : c1 ≠ c2) :
    (∀ w ∈ migWriteTargets num_cips num_pm_types, w.1 = w.2.1) ∧
    parseMigrationCosts num_cips num_pm_types vals init c1 c2 v =
      init c1 c2 v := by
  refine ⟨migWriteTargets_diagonal num_cips num_pm_types, ?_⟩
  exact applyWrites_offdiagonal vals _
    (migWriteTargets_diagonal num_cips num_pm_types) 0 init c1 c2 v hne

theorem claim_C7_witness :
    (0 : ℕ) ≠ 1 ∧
    ((∀ w ∈ migWriteTargets 2 1, w.1 = w.2.1) ∧
     parseMigrationCosts 2 1 (fun i => (i : ℚ) + 7) (fun _ _ _ => 0) 0 1 0 =
       (fun _ _ _ => (0 : ℚ)) 0 1 0) :=
  ⟨by decide,
   claim_C7_migration_parse_diagonal 2 1 (fun i => (i : ℚ) + 7)
     (fun _ _ _ => 0) 0 1 0 (by decide)⟩

/-! ### Command-line handling in `main` (claim C9) -/

/-- Observable outcome of a `main` run: a normal return (with the exit
code, whether the usage text was printed, and an optional message on
standard error), or termination by an exception that `main` never
catches. -/
inductive MainOutcome where
  | exited (code : Int) (usagePrinted : Bool) (stderrNote : Option String)
  | uncaught (msg : String)
deriving DecidableEq

/-- Valid `--formation` tags (src/sim.cpp lines 3268-3288). -/
def formationTags : List String := ["nash", "merge-split", "pareto", "social"]

/-- Valid `--payoff` tags (src/sim.cpp lines 3289-3305). -/
def payoffTags : List String := ["banzhaf", "norm-banzhaf", "shapley"]

/-- Parsed command line: `argcLt2` is `argc < 2`; `formation` and
`payoff` carry the tag after defaulting (`nash` / `shapley`);
`scenario` is the `--scenario` value, empty when absent.  Modelled from
the spec for the one external piece: `dcs::cli::simple::get_option`
(dcsxx-commons, not under src/) yields an empty string for a missing
`--scenario`, matching the spec's contract that a missing scenario is
reported with the usage text and exit −1. -/
structure CmdLine where
  argcLt2 : Bool
  help : Bool
  formation : String
  payoff : String
  scenario : String

/-- Control flow of `main` (src/sim.cpp lines 3235-3342): the usage/−1
path for `argc < 2`, the usage/0 path for `--help`, `throw
std::invalid_argument(...)` — uncaught, `main` has no try/catch — for
unknown formation and payoff tags, the usage/−1 path with the
"(E) Scenario file not specified" note for an empty scenario name, and
propagation of `make_scenario`'s exception (also uncaught) on a parse
error; otherwise the experiment runs. -/
def mainModel (c : CmdLine) (parseScenario : String → Except String Unit)
    (runOutcome : MainOutcome) : MainOutcome :=
  if c.argcLt2 then .exited (-1) true none
  else if c.help then .exited 0 true none
  else if !formationTags.contains c.formation then
    .uncaught "Unknown coalition formation category"
  else if !payoffTags.contains c.payoff then
    .uncaught "Unknown coalition value division category"
  else if c.scenario = "" then
    .exited (-1) true (some "(E) Scenario file not specified")
  else
    match parseScenario c.scenario with
    | .error msg => .uncaught msg
    | .ok _ => runOutcome

/-- Does the outcome match claim C9's description of a fatal CLI error —
usage printed and exit code −1? -/
def isUsageExitMinusOne : MainOutcome → Bool
  | .exited code usagePrinted _ => (code == -1) && usagePrinted
  | .uncaught _ => false

/-- Command line with an unknown `--formation` tag and everything else
valid. -/
def cmdBadFormation : CmdLine :=
  { argcLt2 := false, help := false, formation := "foo",
    payoff := "shapley", scenario := "scenario.txt" }

/-- Counterexample to claim C9: with `--formation foo` the program does
not print the usage and exit −1; it throws
`std::invalid_argument("Unknown coalition formation category")`, which
`main` never catches, so the process is terminated by the exception. -/
theorem claim_C9_counterexample :
    mainModel cmdBadFormation (fun _ => .ok ()) (.exited 0 false none) =
      .uncaught "Unknown coalition formation category" ∧
    isUsageExitMinusOne
      (mainModel cmdBadFormation (fun _ => .ok ()) (.exited 0 false none)) =
      false := by
  constructor
  · rfl
  · rfl

/-- Claim C9, amended: only the missing-`--scenario` path prints the
usage and returns −1 (with "(E) Scenario file not specified" on standard
error); an unknown `--formation` or `--payoff` tag raises an uncaught
`std::invalid_argument` (no usage text, no −1 return), and a scenario
parse error propagates `make_scenario`'s exception uncaught, its message
surfacing through the runtime's terminate handler rather than through a
−1 exit. -/
theorem claim_C9_amended_cli_errors (c : CmdLine)
    (parseScenario : String → Except String Unit) (runOutcome : MainOutcome) :
    (c.argcLt2 = false → c.help = false →
      formationTags.contains c.formation = true →
      payoffTags.contains c.payoff = true →
      c.scenario = "" →
      mainModel c parseScenario runOutcome =
        .exited (-1) true (some "(E) Scenario file not specified")) ∧
    (c.argcLt2 = false → c.help = false →
      formationTags.contains c.formation = false →
      mainModel c parseScenario runOutcome =
        .uncaught "Unknown coalition formation category") ∧
    (c.argcLt2 = false → c.help = false →
      formationTags.contains c.formation = true →
      payoffTags.contains c.payoff = false →
      mainModel c parseScenario runOutcome =
        .uncaught "Unknown coalition value division category") ∧
    (∀ msg, c.argcLt2 = false → c.help = false →
      formationTags.contains c.formation = true →
      payoffTags.contains c.payoff = true →
      ¬ c.scenario = "" →
      parseScenario c.scenario = .error msg →
      mainModel c parseScenario runOutcome = .uncaught msg) := by
  refine ⟨?_, ?_, ?_, ?_⟩
  · intro h1 h2 h3 h4 h5
    have h3m : c.formation ∈ formationTags := by simpa using h3
    have h4m : c.payoff ∈ payoffTags := by simpa using h4
    simp [mainModel, h1, h2, h3m, h4m, h5]
  · intro h1 h2 h3
    have h3m : c.formation ∉ formationTags := by simpa using h3
    simp [mainModel, h1, h2, h3m]
  · intro h1 h2 h3 h4
    have h3m : c.formation ∈ formationTags := by simpa using h3
    have h4m : c.payoff ∉ payoffTags := by simpa using h4
    simp [mainModel, h1, h2, h3m, h4m]
  · intro msg h1 h2 h3 h4 h5 h6
    have h3m : c.formation ∈ formationTags := by simpa using h3
    have h4m : c.payoff ∈ payoffTags := by simpa using h4
    simp [mainModel, h1, h2, h3m, h4m, h5, h6]

/-- Command line with a valid tag set and a present scenario path. -/
def cmdParseErrorW : CmdLine :=
  { argcLt2 := false, help := false, formation := "nash",
    payoff := "shapley", scenario := "bad.txt" }

theorem claim_C9_amended_witness :
    (cmdParseErrorW.argcLt2 = false ∧ cmdParseErrorW.help = false ∧
     formationTags.contains cmdParseErrorW.formation = true ∧
     payoffTags.contains cmdParseErrorW.payoff = true ∧
     ¬ cmdParseErrorW.scenario = "" ∧
     (fun _ : String =>
       (.error "Malformed scenario file" : Except String Unit))
         cmdParseErrorW.scenario = .error "Malformed scenario file") ∧
    mainModel cmdParseErrorW
      (fun _ => (.error "Malformed scenario file" : Except String Unit))
      (.exited 0 false none) = .uncaught "Malformed scenario file" :=
  ⟨⟨rfl, rfl, rfl, rfl, by decide, rfl⟩,
   (claim_C9_amended_cli_errors cmdParseErrorW
     (fun _ => (.error "Malformed scenario file" : Except String Unit))
     (.exited 0 false none)).2.2.2 "Malformed scenario file"
     rfl rfl rfl rfl (by decide) rfl⟩

/-! ### CSV export (claim C10) -/

/-- The `Value(Coalition)` column of one CSV row as `export_csv`
computes it (src/sim.cpp lines 2944-2954): starting from 0, the loop
over players `p < ncips` adds the payoff entry whenever the map has one
and prints nothing otherwise. -/
def csvRowValueLoop (ncips : ℕ) (payoffs : ℕ → Option ℚ) : ℚ :=
  (List.range ncips).foldl
    (fun acc p =>
      match payoffs p with
      | some w => acc + w
      | none => acc) 0

lemma csvRowValueLoop_foldl_general (payoffs : ℕ → Option ℚ) :
    ∀ (n : ℕ) (a : ℚ),
      (List.range n).foldl
        (fun acc p =>
          match payoffs p with
          | some w => acc + w
          | none => acc) a =
        a + ∑ p ∈ Finset.range n, (payoffs p).getD 0 := by
  intro n
  induction n with
  | zero => intro a; simp
  | succ k ih =>
      intro a
      rw [List.range_succ, List.foldl_append, ih a, Finset.sum_range_succ]
      cases hp : payoffs k with
      | none => simp [hp]
      | some w =>
          simp only [List.foldl_cons, List.foldl_nil, hp, Option.getD_some]
          rw [add_assoc]

/-- Coalition record with an empty payoff map but a non-zero stored
value, as an infeasible coalition would leave behind. -/
def csvEntryW : CoalitionEntry :=
  { value := 5, core_empty := true, payoffs_in_core := false,
    payoffs := fun _ => none }

/-- Claim C10: the `Value(Coalition)` column equals the sum of the
per-player payoff entries printed in the row (absent entries
contributing 0), and it is not the stored characteristic value `v(S)`:
a coalition whose payoff map is empty (an infeasible coalition) while
its stored value is not 0 — or any record whose payoffs do not sum to
`value`, as with plain Banzhaf — yields a different column. -/
theorem claim_C10_csv_value_column (ncips : ℕ) (payoffs : ℕ → Option ℚ) :
    csvRowValueLoop ncips payoffs =
      (∑ p ∈ Finset.range ncips, (payoffs p).getD 0) ∧
    ∃ e : CoalitionEntry,
      csvRowValueLoop 2 e.payoffs ≠ e.value := by
  constructor
  · unfold csvRowValueLoop
    rw [csvRowValueLoop_foldl_general payoffs ncips 0, zero_add]
  · refine ⟨csvEntryW, ?_⟩
    norm_num [csvRowValueLoop, csvEntryW, List.range_succ]

end CloudGT
